import Mathlib

/-!
Shallow embedding of `src/spectrogram.rs` (wasm-spectrogram).

The Rust code computes over `f32`; here the arithmetic is modelled exactly over
the real numbers `ℝ` (complex samples over `ℂ`), which is the idealisation the
specification itself uses ("a sequence of non-negative reals").  The forward
FFT is out of scope for the repository (an external crate); it is carried in
the state as an abstract function `fft : List ℂ → List ℂ`, exactly the
black-box `transform(complex[N]) → complex[N]` interface the specification
declares.  Fallible operations return `Except Error Unit` like the Rust
`Result<(), Error>`; a Rust panic (out-of-bounds slice index) is modelled by
`Option`, with `none` for the panic.
-/

namespace Spectro

open Complex

/-- Modelled from the spec: `crate::error::Error` is not under `src/`; §7 of the
spec reserves exactly two error kinds, `InvalidConfiguration` and
`BufferSizeMismatch`. -/
inductive Error where
  | invalidConfiguration : Error
  | bufferSizeMismatch : Error
deriving DecidableEq

/-- One stereo sample of the audio chunk: mutable left/right amplitudes. -/
structure Sample where
  left : ℝ
  right : ℝ

/-- Modelled from the spec: `crate::audio::Buffer` is not under `src/`; §6 of
the spec describes it as an ordered sequence of stereo samples plus a sample
rate in Hz. -/
structure Buffer where
  sample_rate : ℝ
  data : List Sample

/-- One pixel of a row: its x coordinate and its R/G/B byte channels. -/
structure Pixel where
  x : ℕ
  r : ℕ
  g : ℕ
  b : ℕ

/-- Modelled from the spec: `crate::canvas::Line` is not under `src/`; §6 of
the spec describes the pixel row as an ordered sequence of addressable pixel
positions with settable R/G/B channels, with the row length `len` supplied by
the caller. -/
structure Line where
  len : ℕ
  data : List Pixel

/-- Modelled from the spec: `crate::ring::Ring` is not under `src/`; §3/§4.1 of
the spec describe it as a fixed-capacity circular sequence, always exactly
`capacity` elements present (zero-initialised), pushing one new element
logically evicts the oldest, contents exposed in temporal (oldest→newest)
order.  The list holds the contents in temporal order, so `enqueue` drops the
oldest (head) and appends the newest. -/
def enqueueRing (q : List ℂ) (x : ℂ) : List ℂ :=
  q.drop 1 ++ [x]

/-- Semantics of `chunks_exact(2)` over the window followed by `*dst = (a + b) / 2.0`:
the pairwise averages of adjacent non-overlapping pairs, in order.  A trailing
unpaired element (impossible for the even-capacity ring) is discarded, as
`chunks_exact` discards the remainder. -/
noncomputable def pairAvg : List ℂ → List ℂ
  | a :: b :: rest => (a + b) / 2 :: pairAvg rest
  | _ => []

/-- Semantics of `for (src, dst) in newVals.zip(dst.iter_mut())` writing each
`src` to `dst`: the zip
stops at the shorter sequence, so slots of `dst` beyond `newVals.length` keep
their old values and elements of `newVals` beyond `dst.length` are dropped. -/
def overwrite (newVals dst : List α) : List α :=
  newVals.take dst.length ++ dst.drop newVals.length

/-- Semantics of the magnitude-folding loop `for (bin, sum) in
bins.zip(freq_sum.iter_mut())` adding `2.0 * bin.norm() / len as f32` to each
sum, from `Spectrogram::process` (src/spectrogram.rs:68-72). -/
noncomputable def addMags (bins : List ℂ) (len : ℕ) (sums : List ℝ) : List ℝ :=
  (List.zipWith (fun b s => s + 2 * Complex.abs b / (len : ℝ)) bins sums)
    ++ sums.drop bins.length

/-- The function `fn boost` (src/spectrogram.rs:125-127). -/
noncomputable def boost (value factor : ℝ) : ℝ :=
  ((factor + 1) * value) / (factor * value + 1)

/-- The function `fn from_piano_key` (src/spectrogram.rs:130-132). -/
noncomputable def from_piano_key (n : ℝ) : ℝ :=
  (2 : ℝ) ^ ((n - 49) / 12) * 440

/-- Rust saturating float-to-`u8` cast `x as u8`: truncation toward zero,
clamped to `[0, 255]` (for `x ≥ 0` truncation is `⌊x⌋`; for `x < 0` the result
is `0`, which `Int.toNat` of the floor also gives). -/
noncomputable def toByte (x : ℝ) : ℕ :=
  min 255 (Int.toNat ⌊x⌋)

/-- The grayscale mapping `((1.0 - v) * u8::max_value() as f32) as u8` from
`Spectrogram::draw_frame` (src/spectrogram.rs:108). -/
noncomputable def grayscale (v : ℝ) : ℕ :=
  toByte ((1 - v) * 255)

/-- The state `struct Spectrogram` (src/spectrogram.rs:12-25).  The `fft : Radix4<f32>`
member is modelled as the abstract transform function the spec declares
out of scope. -/
structure Spectrogram where
  from_key : ℝ
  to_key : ℝ
  boost : ℝ
  sample_rate : ℝ
  fft : List ℂ → List ℂ
  queue : List ℂ
  input : List ℂ
  output : List ℂ
  freq_sum : List ℝ
  freq_n : ℕ

/-- Constructor `Spectrogram::new` (src/spectrogram.rs:29-51).  `fftImpl` stands for
`Radix4::new(buffer_size, false)`. -/
def new (buffer_size_power : ℕ) (from_key to_key boostFactor : ℝ)
    (fftImpl : List ℂ → List ℂ) : Spectrogram :=
  let queue_size := 2 ^ buffer_size_power
  let buffer_size := 2 ^ (buffer_size_power - 1)
  { from_key := from_key
    to_key := to_key
    boost := boostFactor
    sample_rate := 1
    fft := fftImpl
    queue := List.replicate queue_size 0
    input := List.replicate buffer_size 0
    output := List.replicate buffer_size 0
    freq_sum := List.replicate (buffer_size / 2 - 1) 0
    freq_n := 0 }

/-- The body of the per-sample loop of `Spectrogram::process`
(src/spectrogram.rs:56-75), acting on the engine state: enqueue the left
amplitude as a complex sample, recompute the downsampled input as the pairwise
averages of the whole window, run the transform, fold the normalised magnitudes
of bins `[1, len/2)` into `freq_sum`, increment `freq_n`. -/
noncomputable def processSample (s : Spectrogram) (left : ℝ) : Spectrogram :=
  let q := enqueueRing s.queue ⟨left, 0⟩
  let inp := overwrite (pairAvg q) s.input
  let out := s.fft inp
  let bins := (out.drop 1).take (out.length / 2 - 1)
  { s with
    queue := q
    input := inp
    output := out
    freq_sum := addMags bins out.length s.freq_sum
    freq_n := s.freq_n + 1 }

/-- Operation `Spectrogram::process` (src/spectrogram.rs:53-81): update the sample rate
to half the chunk rate, run the per-sample step for every sample in order, and
zero both amplitudes of every sample in the caller's chunk.  Always `Ok`. -/
noncomputable def process (s : Spectrogram) (buffer : Buffer) :
    Spectrogram × Buffer × Except Error Unit :=
  let s0 := { s with sample_rate := buffer.sample_rate / 2 }
  let s1 := buffer.data.foldl (fun st smp => processSample st smp.left) s0
  (s1, { buffer with data := buffer.data.map (fun _ => ⟨0, 0⟩) }, Except.ok ())

/-- The fractional bin index of `Spectrogram::draw_frame`
(src/spectrogram.rs:96-97): `(f * output.len() / sample_rate - 1.0)
.max(0.0).min(freq_sum.len() - 1.0)`. -/
noncomputable def binIndex (s : Spectrogram) (f : ℝ) : ℝ :=
  min (max (f * (s.output.length : ℝ) / s.sample_rate - 1) 0)
    ((s.freq_sum.length : ℝ) - 1)

/-- The per-pixel body of `Spectrogram::draw_frame`
(src/spectrogram.rs:90-113).  `none` models the Rust panic on an out-of-bounds
`freq_sum` index; the floor/ceil casts `as usize` saturate at `0`, which
`Int.toNat` models. -/
noncomputable def renderPixel (s : Spectrogram) (len : ℕ) (p : Pixel) :
    Option Pixel :=
  let keys := s.to_key - s.from_key + 1
  let x : ℝ := (p.x : ℝ) / ((len - 1 : ℕ) : ℝ)
  let f := from_piano_key (x * keys + s.from_key - 0.5)
  let i := binIndex s f
  let i0 := Int.toNat ⌊i⌋
  let i1 := Int.toNat ⌈i⌉
  let di := Int.fract i
  match s.freq_sum[i0]?, s.freq_sum[i1]? with
  | some w0, some w1 =>
    let v0 := w0 / (s.freq_n : ℝ)
    let v1 := w1 / (s.freq_n : ℝ)
    let v := boost (v0 * (1 - di) + v1 * di) s.boost
    let c := grayscale v
    some { p with r := c, g := c, b := c }
  | _, _ => none

/-- The pixel loop of `Spectrogram::draw_frame` (src/spectrogram.rs:90-113):
render each pixel of the row in order; `none` models a panic part-way. -/
noncomputable def renderAll (s : Spectrogram) (len : ℕ) : List Pixel → Option (List Pixel)
  | [] => some []
  | p :: ps =>
    match renderPixel s len p with
    | none => none
    | some q => (renderAll s len ps).map (fun r => q :: r)

/-- Operation `Spectrogram::draw_frame` (src/spectrogram.rs:83-121): no-op when
`freq_n == 0`; otherwise render every pixel of the row, then reset `freq_n`
and every accumulator slot to zero.  Always `Ok` when it returns
(`none` models a panic). -/
noncomputable def drawFrame (s : Spectrogram) (line : Line) :
    Option (Spectrogram × Line × Except Error Unit) :=
  if s.freq_n = 0 then
    some (s, line, Except.ok ())
  else
    match renderAll s line.len line.data with
    | none => none
    | some px =>
      some ({ s with
                freq_n := 0
                freq_sum := List.replicate s.freq_sum.length 0 },
            { line with data := px }, Except.ok ())

/-- One call of the engine's public interface: a `process` call with an audio
chunk or a `draw_frame` call with a pixel row. -/
inductive Cmd where
  | proc : Buffer → Cmd
  | draw : Line → Cmd

/-- Run a sequence of `process`/`draw_frame` calls from a starting state,
collecting the pixel rows emitted by the `draw_frame` calls.  `none` models a
panic in some call of the sequence. -/
noncomputable def runScript (s : Spectrogram) : List Cmd → Option (Spectrogram × List Line)
  | [] => some (s, [])
  | Cmd.proc b :: cs => runScript (process s b).1 cs
  | Cmd.draw l :: cs =>
    match drawFrame s l with
    | none => none
    | some (s', l', _) => (runScript s' cs).map (fun r => (r.1, l' :: r.2))

/-- Well-formedness of an engine state for buffer-size power `p`: the transform
is a size-preserving map (the spec's `transform(complex[N]) → complex[N]`
black box) and the buffers have the sizes `Spectrogram::new` allocates. -/
structure WF (p : ℕ) (s : Spectrogram) : Prop where
  fft_len : ∀ l, (s.fft l).length = l.length
  queue_len : s.queue.length = 2 ^ p
  input_len : s.input.length = 2 ^ (p - 1)
  output_len : s.output.length = 2 ^ (p - 1)
  freq_len : s.freq_sum.length = 2 ^ (p - 1) / 2 - 1

/-- Concrete engine state used as a test fixture: one accumulated frame
(`freq_n = 1`) with a single accumulator slot holding `5`. -/
def stateA : Spectrogram :=
  ⟨0, 0, 0, 1, fun l => l, [], [], [], [5], 1⟩

/-- The fixture `stateA` after a reset: the slot zeroed and `freq_n = 0`. -/
def stateB : Spectrogram :=
  ⟨0, 0, 0, 1, fun l => l, [], [], [], [0], 0⟩

/-- Concrete engine state with no accumulated frames (`freq_n = 0`). -/
def stateZ : Spectrogram :=
  ⟨0, 0, 0, 1, fun l => l, [], [], [], [5], 0⟩

/-- Concrete engine state whose transform always yields four zero bins. -/
def stateC : Spectrogram :=
  ⟨0, 0, 0, 1, fun _ => [0, 0, 0, 0], [], [], [], [5], 3⟩

/-- A pixel row of claimed length 4 carrying no pixels. -/
def lineEmpty : Line :=
  ⟨4, []⟩

/-! Basic lemmas about the list-level helpers. -/

@[simp]
theorem pairAvg_nil : pairAvg [] = [] := rfl

@[simp]
theorem pairAvg_single (a : ℂ) : pairAvg [a] = [] := rfl

@[simp]
theorem pairAvg_cons_cons (a b : ℂ) (rest : List ℂ) :
    pairAvg (a :: b :: rest) = (a + b) / 2 :: pairAvg rest := rfl

theorem pairAvg_length : ∀ l : List ℂ, (pairAvg l).length = l.length / 2
  | [] => rfl
  | [_] => by simp
  | _ :: _ :: rest => by
    simp [pairAvg_length rest]
    omega

@[simp]
theorem overwrite_length (newVals dst : List α) :
    (overwrite newVals dst).length = dst.length := by
  simp [overwrite]
  omega

theorem overwrite_of_length_eq {newVals dst : List α}
    (h : newVals.length = dst.length) : overwrite newVals dst = newVals := by
  unfold overwrite
  rw [h, List.drop_length, List.append_nil, ← h, List.take_length]

@[simp]
theorem addMags_nil_bins (len : ℕ) (sums : List ℝ) : addMags [] len sums = sums := by
  simp [addMags]

@[simp]
theorem addMags_nil_sums (bins : List ℂ) (len : ℕ) : addMags bins len [] = [] := by
  simp [addMags]

@[simp]
theorem addMags_cons (b : ℂ) (bs : List ℂ) (len : ℕ) (s : ℝ) (ss : List ℝ) :
    addMags (b :: bs) len (s :: ss)
      = (s + 2 * Complex.abs b / (len : ℝ)) :: addMags bs len ss := by
  simp [addMags]

@[simp]
theorem addMags_length (bins : List ℂ) (len : ℕ) (sums : List ℝ) :
    (addMags bins len sums).length = sums.length := by
  simp [addMags]
  omega

theorem addMags_getElem? :
    ∀ (bins : List ℂ) (sums : List ℝ) (i len : ℕ) (b : ℂ) (s : ℝ),
      bins[i]? = some b → sums[i]? = some s →
      (addMags bins len sums)[i]? = some (s + 2 * Complex.abs b / (len : ℝ))
  | [], _, i, _, _, _, hb, _ => by simp at hb
  | _ :: _, [], i, _, _, _, _, hs => by simp at hs
  | b0 :: bs, s0 :: ss, 0, len, b, s, hb, hs => by
    simp at hb hs
    simp [hb, hs]
  | b0 :: bs, s0 :: ss, i + 1, len, b, s, hb, hs => by
    simp only [List.getElem?_cons_succ] at hb hs
    simpa using addMags_getElem? bs ss i len b s hb hs

theorem addMags_nonneg :
    ∀ (bins : List ℂ) (len : ℕ) (sums : List ℝ),
      (∀ x ∈ sums, 0 ≤ x) → ∀ x ∈ addMags bins len sums, 0 ≤ x
  | [], len, sums, h => by simpa using h
  | _ :: _, len, [], h => by simp
  | b :: bs, len, s :: ss, h => by
    intro x hx
    rw [addMags_cons] at hx
    rcases List.mem_cons.mp hx with h1 | h2
    · have hs : (0 : ℝ) ≤ s := h s (List.mem_cons_self s ss)
      have habs : (0 : ℝ) ≤ Complex.abs b := AbsoluteValue.nonneg Complex.abs b
      have hq : (0 : ℝ) ≤ 2 * Complex.abs b / (len : ℝ) :=
        div_nonneg (by linarith) (Nat.cast_nonneg len)
      rw [h1]
      linarith
    · exact addMags_nonneg bs len ss (fun y hy => h y (List.mem_cons_of_mem s hy)) x h2

theorem enqueueRing_length {q : List ℂ} (x : ℂ) (h : 1 ≤ q.length) :
    (enqueueRing q x).length = q.length := by
  simp [enqueueRing]
  omega

theorem foldl_enqueueRing : ∀ (xs q : List ℂ), xs.length ≤ q.length →
    List.foldl enqueueRing q xs = q.drop xs.length ++ xs
  | [], q, _ => by simp
  | x :: xs, q, h => by
    have hlen : (x :: xs).length ≤ q.length := h
    have h1 : xs.length ≤ (enqueueRing q x).length := by
      simp [enqueueRing]
      simp at hlen
      omega
    rw [List.foldl_cons, foldl_enqueueRing xs _ h1]
    show (q.drop 1 ++ [x]).drop xs.length ++ xs = q.drop (x :: xs).length ++ (x :: xs)
    rw [List.drop_append_eq_append_drop]
    have h2 : xs.length - (q.drop 1).length = 0 := by
      simp at hlen ⊢
      omega
    rw [h2, List.drop_drop]
    simp [Nat.add_comm]

theorem renderAll_ne_none (s : Spectrogram) (len : ℕ) :
    ∀ ps : List Pixel, (∀ p ∈ ps, renderPixel s len p ≠ none) →
      renderAll s len ps ≠ none
  | [], _ => by simp [renderAll]
  | p :: ps, h => by
    have h1 := h p (List.mem_cons_self p ps)
    have h2 := renderAll_ne_none s len ps (fun x hx => h x (List.mem_cons_of_mem p hx))
    cases hfp : renderPixel s len p with
    | none => exact absurd hfp h1
    | some q =>
      cases hl : renderAll s len ps with
      | none => exact absurd hl h2
      | some qs => simp [renderAll, hfp, hl]

/-! Claim theorems. -/

/-- C8: the boost function computes exactly `((factor+1)·value) / (factor·value
+ 1)`; `boost(v, 0) = v`; for `factor > 0` and `v ∈ [0,1]` the result lies in
`[0,1]` and is monotone non-decreasing in `v`. -/
theorem C8_boost_properties :
    (∀ value factor : ℝ, boost value factor = ((factor + 1) * value) / (factor * value + 1)) ∧
    (∀ value : ℝ, boost value 0 = value) ∧
    (∀ factor value : ℝ, 0 < factor → 0 ≤ value → value ≤ 1 →
      0 ≤ boost value factor ∧ boost value factor ≤ 1) ∧
    (∀ factor v w : ℝ, 0 < factor → 0 ≤ v → v ≤ w → w ≤ 1 →
      boost v factor ≤ boost w factor) := by
  refine ⟨fun _ _ => rfl, fun value => by simp [boost], ?_, ?_⟩
  · intro factor value hf h0 h1
    have hden : (0 : ℝ) < factor * value + 1 := by nlinarith
    constructor
    · exact div_nonneg (by nlinarith) (le_of_lt hden)
    · rw [boost, div_le_one hden]
      nlinarith
  · intro factor v w hf h0 hvw h1
    have hdv : (0 : ℝ) < factor * v + 1 := by nlinarith
    have hdw : (0 : ℝ) < factor * w + 1 := by nlinarith
    rw [boost, boost, div_le_div_iff₀ hdv hdw]
    nlinarith [mul_nonneg (le_of_lt hf) (sub_nonneg.mpr hvw)]

theorem C8_boost_properties_witness :
    boost (1 / 2 : ℝ) 0 = 1 / 2 ∧
    (0 ≤ boost (1 / 2 : ℝ) 1 ∧ boost (1 / 2 : ℝ) 1 ≤ 1) ∧
    boost (1 / 4 : ℝ) 1 ≤ boost (1 / 2 : ℝ) 1 :=
  ⟨C8_boost_properties.2.1 (1 / 2),
   C8_boost_properties.2.2.1 1 (1 / 2) (by norm_num) (by norm_num) (by norm_num),
   C8_boost_properties.2.2.2 1 (1 / 4) (1 / 2) (by norm_num) (by norm_num) (by norm_num)
     (by norm_num)⟩

/-- C6: after `process(chunk)` returns, every sample of the caller's chunk has
both left and right amplitude equal to `0`, and the chunk still has the same
number of samples. -/
theorem C6_process_silences :
    ∀ (s : Spectrogram) (buffer : Buffer),
      (process s buffer).2.1.data.length = buffer.data.length ∧
      ∀ smp ∈ (process s buffer).2.1.data, smp.left = 0 ∧ smp.right = 0 := by
  intro s buffer
  constructor
  · simp [process]
  · intro smp hsmp
    simp only [process] at hsmp
    rw [List.mem_map] at hsmp
    obtain ⟨a, -, h⟩ := hsmp
    rw [← h]
    exact ⟨rfl, rfl⟩

theorem C6_process_silences_witness :
    (process (new 2 0 0 0 (fun l => l)) ⟨48000, [⟨3, 4⟩]⟩).2.1.data.length = 1 ∧
    ((⟨0, 0⟩ : Sample).left = 0 ∧ (⟨0, 0⟩ : Sample).right = 0) :=
  ⟨(C6_process_silences (new 2 0 0 0 (fun l => l)) ⟨48000, [⟨3, 4⟩]⟩).1,
   (C6_process_silences (new 2 0 0 0 (fun l => l)) ⟨48000, [⟨3, 4⟩]⟩).2 ⟨0, 0⟩
     (by simp [process])⟩

/-- C9: determinism — for fixed construction parameters and transform, running
the same sequence of `process` and `draw_frame` calls produces identical
states and identical emitted pixel rows. -/
theorem C9_determinism :
    ∀ (p : ℕ) (fk tk b : ℝ) (fn : List ℂ → List ℂ) (script1 script2 : List Cmd),
      script1 = script2 →
      runScript (new p fk tk b fn) script1 = runScript (new p fk tk b fn) script2 := by
  intro p fk tk b fn s1 s2 h
  rw [h]

theorem C9_determinism_witness :
    runScript (new 3 1 88 0 (fun l => l)) [Cmd.proc ⟨48000, []⟩, Cmd.draw ⟨4, []⟩] =
      runScript (new 3 1 88 0 (fun l => l)) [Cmd.proc ⟨48000, []⟩, Cmd.draw ⟨4, []⟩] :=
  C9_determinism 3 1 88 0 (fun l => l) _ _ rfl

/-- C10: no parameter validation exists: `process` always returns `Ok`,
`draw_frame` returns `Ok` whenever it returns, and invalid configurations
(`toKey < fromKey`, non-positive sample rate) are accepted without any check
producing the `Error` result. -/
theorem C10_no_validation :
    (∀ (s : Spectrogram) (buffer : Buffer), (process s buffer).2.2 = Except.ok ()) ∧
    (∀ (s : Spectrogram) (line : Line) (out : Spectrogram × Line × Except Error Unit),
      drawFrame s line = some out → out.2.2 = Except.ok ()) ∧
    (∀ (p : ℕ) (fk tk b : ℝ) (fn : List ℂ → List ℂ) (buffer : Buffer),
      tk < fk ∨ buffer.sample_rate ≤ 0 →
      (process (new p fk tk b fn) buffer).2.2 = Except.ok ()) := by
  refine ⟨fun s buffer => rfl, ?_, fun p fk tk b fn buffer _ => rfl⟩
  intro s line out h
  unfold drawFrame at h
  split at h
  · injection h with h1
    rw [← h1]
  · split at h
    · exact absurd h (by simp)
    · injection h with h1
      rw [← h1]

theorem C10_no_validation_witness :
    (process (new 2 5 1 0 (fun l => l)) ⟨-1, []⟩).2.2 = Except.ok () ∧
    ((new 2 5 1 0 (fun l => l)), (⟨4, []⟩ : Line),
      (Except.ok () : Except Error Unit)).2.2 = Except.ok () :=
  ⟨C10_no_validation.2.2 2 5 1 0 (fun l => l) ⟨-1, []⟩ (Or.inl (by norm_num)),
   C10_no_validation.2.1 (new 2 5 1 0 (fun l => l)) ⟨4, []⟩
     ((new 2 5 1 0 (fun l => l)), (⟨4, []⟩ : Line), (Except.ok () : Except Error Unit))
     (by simp [drawFrame, new])⟩

/-! Structural lemmas about processSample and process. -/

theorem processSample_queue (s : Spectrogram) (left : ℝ) :
    (processSample s left).queue = enqueueRing s.queue ⟨left, 0⟩ := rfl

theorem processSample_input (s : Spectrogram) (left : ℝ) :
    (processSample s left).input
      = overwrite (pairAvg (enqueueRing s.queue ⟨left, 0⟩)) s.input := rfl

theorem processSample_output (s : Spectrogram) (left : ℝ) :
    (processSample s left).output
      = s.fft (overwrite (pairAvg (enqueueRing s.queue ⟨left, 0⟩)) s.input) := rfl

theorem processSample_freq_sum (s : Spectrogram) (left : ℝ) :
    (processSample s left).freq_sum
      = addMags (((processSample s left).output.drop 1).take
            ((processSample s left).output.length / 2 - 1))
          (processSample s left).output.length s.freq_sum := rfl

theorem processSample_freq_n (s : Spectrogram) (left : ℝ) :
    (processSample s left).freq_n = s.freq_n + 1 := rfl

theorem processSample_fft (s : Spectrogram) (left : ℝ) :
    (processSample s left).fft = s.fft := rfl

theorem process_fst (s : Spectrogram) (buffer : Buffer) :
    (process s buffer).1
      = buffer.data.foldl (fun st smp => processSample st smp.left)
          { s with sample_rate := buffer.sample_rate / 2 } := rfl

theorem foldl_processSample_freq_n :
    ∀ (data : List Sample) (s0 : Spectrogram),
      (data.foldl (fun st smp => processSample st smp.left) s0).freq_n
        = s0.freq_n + data.length
  | [], s0 => by simp
  | smp :: rest, s0 => by
    rw [List.foldl_cons, foldl_processSample_freq_n rest _, processSample_freq_n]
    simp
    omega

theorem foldl_processSample_freq_sum_length :
    ∀ (data : List Sample) (s0 : Spectrogram),
      (data.foldl (fun st smp => processSample st smp.left) s0).freq_sum.length
        = s0.freq_sum.length
  | [], s0 => by simp
  | smp :: rest, s0 => by
    rw [List.foldl_cons, foldl_processSample_freq_sum_length rest _,
      processSample_freq_sum, addMags_length]

theorem foldl_processSample_freq_sum_nonneg :
    ∀ (data : List Sample) (s0 : Spectrogram),
      (∀ x ∈ s0.freq_sum, 0 ≤ x) →
      ∀ x ∈ (data.foldl (fun st smp => processSample st smp.left) s0).freq_sum, 0 ≤ x
  | [], s0, h => by simpa using h
  | smp :: rest, s0, h => by
    rw [List.foldl_cons]
    exact foldl_processSample_freq_sum_nonneg rest _
      (by rw [processSample_freq_sum]; exact addMags_nonneg _ _ _ h)

/-- C1 counterexample: the claim fixes `capacity = 2^bufferSizePower` and
asserts accumulator length `capacity/2 - 1`; at `bufferSizePower = 3` the code
allocates `2^(3-1)/2 - 1 = 1` slot, not `2^3/2 - 1 = 3`. -/
theorem C1_accumulator_length_counterexample :
    (new 3 0 0 0 (fun l => l)).freq_sum.length ≠ 2 ^ 3 / 2 - 1 := by
  simp [new]

/-- C1 (amended): the magnitude accumulator has length `capacity/4 - 1`
(`capacity = 2^bufferSizePower`; equivalently `transformLen/2 - 1` with
`transformLen = capacity/2`), starts non-negative, and every slot stays
non-negative across every `process` and every `draw_frame` operation. -/
theorem C1_accumulator_invariant :
    (∀ (p : ℕ) (fk tk b : ℝ) (fn : List ℂ → List ℂ),
      (new p fk tk b fn).freq_sum.length = 2 ^ p / 4 - 1 ∧
      ∀ x ∈ (new p fk tk b fn).freq_sum, 0 ≤ x) ∧
    (∀ (s : Spectrogram) (buffer : Buffer),
      (process s buffer).1.freq_sum.length = s.freq_sum.length ∧
      ((∀ x ∈ s.freq_sum, 0 ≤ x) → ∀ x ∈ (process s buffer).1.freq_sum, 0 ≤ x)) ∧
    (∀ (s : Spectrogram) (line : Line) (s' : Spectrogram) (line' : Line)
        (r : Except Error Unit),
      drawFrame s line = some (s', line', r) →
      s'.freq_sum.length = s.freq_sum.length ∧
      ((∀ x ∈ s.freq_sum, 0 ≤ x) → ∀ x ∈ s'.freq_sum, 0 ≤ x)) := by
  refine ⟨?_, ?_, ?_⟩
  · intro p fk tk b fn
    constructor
    · show (List.replicate (2 ^ (p - 1) / 2 - 1) (0 : ℝ)).length = 2 ^ p / 4 - 1
      rw [List.length_replicate]
      cases p with
      | zero => rfl
      | succ n =>
        have h : (2 : ℕ) ^ (n + 1) = 2 ^ n * 2 := pow_succ 2 n
        simp only [Nat.add_sub_cancel]
        omega
    · intro x hx
      have : x = 0 := (List.eq_of_mem_replicate hx)
      rw [this]
  · intro s buffer
    rw [process_fst]
    exact ⟨foldl_processSample_freq_sum_length buffer.data _,
      fun h => foldl_processSample_freq_sum_nonneg buffer.data _ h⟩
  · intro s line s' line' r h
    unfold drawFrame at h
    split at h
    · injection h with h1
      injection h1 with h2 h3
      rw [← h2]
      exact ⟨rfl, fun h => h⟩
    · cases hra : renderAll s line.len line.data with
      | none => rw [hra] at h; exact absurd h (by simp)
      | some px =>
        rw [hra] at h
        injection h with h1
        injection h1 with h2 h3
        rw [← h2]
        refine ⟨List.length_replicate _ _, fun _ x hx => ?_⟩
        have : x = 0 := (List.eq_of_mem_replicate hx)
        rw [this]

theorem C1_accumulator_invariant_witness :
    ((new 3 0 0 0 (fun l => l)).freq_sum.length = 2 ^ 3 / 4 - 1) ∧
    ((process stateA ⟨2, []⟩).1.freq_sum.length = stateA.freq_sum.length) ∧
    (∀ x ∈ (process stateA ⟨2, []⟩).1.freq_sum, 0 ≤ x) :=
  ⟨(C1_accumulator_invariant.1 3 0 0 0 (fun l => l)).1,
   (C1_accumulator_invariant.2.1 stateA ⟨2, []⟩).1,
   (C1_accumulator_invariant.2.1 stateA ⟨2, []⟩).2
     (by simp [stateA])⟩

/-- C2: each processed sample adds `2·|output[k]| / output.len()` to
`freq_sum[k-1]` for every bin `k ∈ [1, output.len()/2)` and increments the
frame counter by exactly one; over a chunk the counter grows by the number of
samples. -/
theorem C2_per_sample_accumulation :
    (∀ (s : Spectrogram) (left : ℝ) (k : ℕ) (w : ℝ) (z : ℂ),
      1 ≤ k → k < (processSample s left).output.length / 2 →
      s.freq_sum[k - 1]? = some w →
      (processSample s left).output[k]? = some z →
      (processSample s left).freq_sum[k - 1]? =
        some (w + 2 * Complex.abs z / ((processSample s left).output.length : ℝ))) ∧
    (∀ (s : Spectrogram) (left : ℝ), (processSample s left).freq_n = s.freq_n + 1) ∧
    (∀ (s : Spectrogram) (buffer : Buffer),
      (process s buffer).1.freq_n = s.freq_n + buffer.data.length) := by
  refine ⟨?_, fun s left => rfl, ?_⟩
  · intro s left k w z hk1 hk2 hw hz
    have hbins : (((processSample s left).output.drop 1).take
        ((processSample s left).output.length / 2 - 1))[k - 1]? = some z := by
      rw [List.getElem?_take, if_pos (by omega), List.getElem?_drop]
      have hkk : 1 + (k - 1) = k := by omega
      rw [hkk, hz]
    rw [processSample_freq_sum]
    exact addMags_getElem? _ _ _ _ z w hbins hw
  · intro s buffer
    rw [process_fst, foldl_processSample_freq_n]

theorem C2_per_sample_accumulation_witness :
    ((processSample stateC 2).freq_sum[0]? =
      some (5 + 2 * Complex.abs 0 / ((processSample stateC 2).output.length : ℝ))) ∧
    ((processSample stateC 2).freq_n = stateC.freq_n + 1) ∧
    ((process stateC ⟨2, []⟩).1.freq_n = stateC.freq_n + 0) :=
  ⟨C2_per_sample_accumulation.1 stateC 2 1 5 0 (by norm_num)
      (by simp [processSample_output, stateC]) rfl rfl,
   C2_per_sample_accumulation.2.1 stateC 2,
   C2_per_sample_accumulation.2.2 stateC ⟨2, []⟩⟩

/-- C4: a `draw_frame` call with `freq_n = 0` is a no-op returning `Ok` that
leaves state and row untouched; a call with `freq_n ≠ 0` that returns resets
the frame counter to zero and every accumulator slot to zero while leaving all
other engine state unchanged, and returns `Ok`. -/
theorem C4_draw_reset :
    ∀ (s : Spectrogram) (line : Line),
      (s.freq_n = 0 → drawFrame s line = some (s, line, Except.ok ())) ∧
      (∀ (s' : Spectrogram) (line' : Line) (r : Except Error Unit),
        s.freq_n ≠ 0 → drawFrame s line = some (s', line', r) →
        s'.freq_n = 0 ∧ s'.freq_sum = List.replicate s.freq_sum.length 0 ∧
        s'.from_key = s.from_key ∧ s'.to_key = s.to_key ∧ s'.boost = s.boost ∧
        s'.sample_rate = s.sample_rate ∧ s'.queue = s.queue ∧
        s'.input = s.input ∧ s'.output = s.output ∧ s'.fft = s.fft ∧
        r = Except.ok ()) := by
  intro s line
  constructor
  · intro h0
    unfold drawFrame
    rw [if_pos h0]
  · intro s' line' r hne h
    unfold drawFrame at h
    rw [if_neg hne] at h
    cases hra : renderAll s line.len line.data with
    | none => rw [hra] at h; exact absurd h (by simp)
    | some px =>
      rw [hra] at h
      injection h with h1
      injection h1 with h2 h3
      injection h3 with h4 h5
      rw [← h2, ← h5]
      exact ⟨rfl, rfl, rfl, rfl, rfl, rfl, rfl, rfl, rfl, rfl, rfl⟩

theorem C4_draw_reset_witness :
    (drawFrame stateZ lineEmpty = some (stateZ, lineEmpty, Except.ok ())) ∧
    (stateB.freq_n = 0 ∧ stateB.freq_sum = List.replicate stateA.freq_sum.length 0 ∧
      stateB.from_key = stateA.from_key ∧ stateB.to_key = stateA.to_key ∧
      stateB.boost = stateA.boost ∧ stateB.sample_rate = stateA.sample_rate ∧
      stateB.queue = stateA.queue ∧ stateB.input = stateA.input ∧
      stateB.output = stateA.output ∧ stateB.fft = stateA.fft ∧
      (Except.ok () : Except Error Unit) = Except.ok ()) :=
  ⟨(C4_draw_reset stateZ lineEmpty).1 rfl,
   (C4_draw_reset stateA lineEmpty).2 stateB lineEmpty (Except.ok ())
     (by simp [stateA]) rfl⟩

theorem two_pow_div_two {p : ℕ} (hp : 1 ≤ p) : 2 ^ p / 2 = 2 ^ (p - 1) := by
  cases p with
  | zero => exact absurd hp (by norm_num)
  | succ n => rw [pow_succ, Nat.add_sub_cancel, Nat.mul_div_cancel _ (by norm_num)]

theorem processSample_input_length (s : Spectrogram) (left : ℝ) :
    (processSample s left).input.length = s.input.length := by
  rw [processSample_input, overwrite_length]

theorem processSample_queue_length (s : Spectrogram) (left : ℝ)
    (h : 1 ≤ s.queue.length) :
    (processSample s left).queue.length = s.queue.length := by
  rw [processSample_queue, enqueueRing_length _ h]

theorem foldl_processSample_queue :
    ∀ (data : List Sample) (s0 : Spectrogram),
      (data.foldl (fun st smp => processSample st smp.left) s0).queue
        = List.foldl enqueueRing s0.queue
            (data.map (fun smp => (⟨smp.left, 0⟩ : ℂ)))
  | [], s0 => by simp
  | smp :: rest, s0 => by
    rw [List.foldl_cons, foldl_processSample_queue rest _, List.map_cons,
      List.foldl_cons, processSample_queue]

theorem foldl_processSample_input_pairAvg :
    ∀ (data : List Sample) (s0 : Spectrogram),
      1 ≤ s0.queue.length → s0.queue.length / 2 = s0.input.length → data ≠ [] →
      (data.foldl (fun st smp => processSample st smp.left) s0).input
        = pairAvg ((data.foldl (fun st smp => processSample st smp.left) s0).queue)
  | [], _, _, _, hne => absurd rfl hne
  | [smp], s0, hq, hlen, _ => by
    simp only [List.foldl_cons, List.foldl_nil]
    rw [processSample_input, processSample_queue]
    apply overwrite_of_length_eq
    rw [pairAvg_length, enqueueRing_length _ hq, hlen]
  | smp :: smp2 :: rest, s0, hq, hlen, _ => by
    rw [List.foldl_cons]
    refine foldl_processSample_input_pairAvg (smp2 :: rest) _ ?_ ?_ (by simp)
    · rw [processSample_queue_length _ _ hq]
      exact hq
    · rw [processSample_queue_length _ _ hq, processSample_input_length]
      exact hlen

/-- C5: every push recomputes the downsampled input as the pairwise averages
of adjacent non-overlapping pairs of the whole current window in temporal
order (`capacity/2` values), and after a chunk of exactly `capacity` fresh
samples the window and the downsampled input are determined by those samples
alone. -/
theorem C5_downsample_recompute :
    ∀ (p : ℕ) (s : Spectrogram), WF p s → 1 ≤ p →
      (∀ left : ℝ,
        (processSample s left).input = pairAvg (enqueueRing s.queue ⟨left, 0⟩) ∧
        (processSample s left).input.length = 2 ^ p / 2) ∧
      (∀ buffer : Buffer, buffer.data.length = 2 ^ p →
        (process s buffer).1.queue
            = buffer.data.map (fun smp => (⟨smp.left, 0⟩ : ℂ)) ∧
        (process s buffer).1.input
            = pairAvg (buffer.data.map (fun smp => (⟨smp.left, 0⟩ : ℂ)))) := by
  intro p s hwf hp
  have hq1 : 1 ≤ s.queue.length := by
    rw [hwf.queue_len]
    exact Nat.one_le_two_pow
  constructor
  · intro left
    have hpa : (pairAvg (enqueueRing s.queue ⟨left, 0⟩)).length = 2 ^ p / 2 := by
      rw [pairAvg_length, enqueueRing_length _ hq1, hwf.queue_len]
    have heq : (processSample s left).input
        = pairAvg (enqueueRing s.queue ⟨left, 0⟩) := by
      rw [processSample_input]
      apply overwrite_of_length_eq
      rw [hpa, hwf.input_len, two_pow_div_two hp]
    refine ⟨heq, ?_⟩
    rw [heq, hpa]
  · intro buffer hlen
    have hmaplen : (buffer.data.map (fun smp => (⟨smp.left, 0⟩ : ℂ))).length
        = s.queue.length := by
      rw [List.length_map, hlen, hwf.queue_len]
    have hqueue : (process s buffer).1.queue
        = buffer.data.map (fun smp => (⟨smp.left, 0⟩ : ℂ)) := by
      rw [process_fst, foldl_processSample_queue]
      show List.foldl enqueueRing s.queue _ = _
      rw [foldl_enqueueRing _ _ (le_of_eq hmaplen), hmaplen, List.drop_length,
        List.nil_append]
    refine ⟨hqueue, ?_⟩
    have hne : buffer.data ≠ [] := by
      intro hcon
      rw [hcon] at hlen
      have := Nat.two_pow_pos p
      simp at hlen
      omega
    have hcond : s.queue.length / 2 = s.input.length := by
      rw [hwf.queue_len, hwf.input_len]
      exact two_pow_div_two hp
    rw [process_fst]
    rw [foldl_processSample_input_pairAvg buffer.data
      { s with sample_rate := buffer.sample_rate / 2 } hq1 hcond hne]
    rw [← process_fst, hqueue]

theorem C5_downsample_recompute_witness :
    ((processSample (new 3 0 0 0 (fun l => l)) 1).input
        = pairAvg (enqueueRing (new 3 0 0 0 (fun l => l)).queue ⟨1, 0⟩) ∧
      (processSample (new 3 0 0 0 (fun l => l)) 1).input.length = 2 ^ 3 / 2) ∧
    ((process (new 3 0 0 0 (fun l => l)) ⟨2, List.replicate 8 ⟨1, 0⟩⟩).1.queue
        = (List.replicate 8 (⟨1, 0⟩ : Sample)).map (fun smp => (⟨smp.left, 0⟩ : ℂ)) ∧
      (process (new 3 0 0 0 (fun l => l)) ⟨2, List.replicate 8 ⟨1, 0⟩⟩).1.input
        = pairAvg ((List.replicate 8 (⟨1, 0⟩ : Sample)).map
            (fun smp => (⟨smp.left, 0⟩ : ℂ)))) :=
  ⟨(C5_downsample_recompute 3 (new 3 0 0 0 (fun l => l))
      ⟨fun _ => rfl, by simp [new], by simp [new], by simp [new], by simp [new]⟩
      (by norm_num)).1 1,
   (C5_downsample_recompute 3 (new 3 0 0 0 (fun l => l))
      ⟨fun _ => rfl, by simp [new], by simp [new], by simp [new], by simp [new]⟩
      (by norm_num)).2 ⟨2, List.replicate 8 ⟨1, 0⟩⟩ (by simp)⟩

theorem binIndex_bounds (s : Spectrogram) (f : ℝ) (h1 : 1 ≤ s.freq_sum.length) :
    Int.toNat ⌊binIndex s f⌋ < s.freq_sum.length ∧
    Int.toNat ⌈binIndex s f⌉ < s.freq_sum.length := by
  have hn : (1 : ℝ) ≤ (s.freq_sum.length : ℝ) := by exact_mod_cast h1
  have hub : binIndex s f ≤ (s.freq_sum.length : ℝ) - 1 := min_le_right _ _
  have hlb : 0 ≤ binIndex s f := le_min (le_max_right _ _) (by linarith)
  have hceil : ⌈binIndex s f⌉ ≤ (s.freq_sum.length : ℤ) - 1 := by
    rw [Int.ceil_le]
    push_cast
    exact hub
  have hfloor : ⌊binIndex s f⌋ ≤ (s.freq_sum.length : ℤ) - 1 :=
    le_trans (Int.floor_le_ceil _) hceil
  constructor <;> omega

theorem renderPixel_ne_none (s : Spectrogram) (len : ℕ) (p : Pixel)
    (h1 : 1 ≤ s.freq_sum.length) : renderPixel s len p ≠ none := by
  simp only [renderPixel]
  rw [List.getElem?_eq_getElem (binIndex_bounds s _ h1).1,
    List.getElem?_eq_getElem (binIndex_bounds s _ h1).2]
  simp

theorem drawFrame_ne_none (s : Spectrogram) (line : Line)
    (h1 : 1 ≤ s.freq_sum.length) : drawFrame s line ≠ none := by
  unfold drawFrame
  split
  · simp
  · cases hra : renderAll s line.len line.data with
    | none =>
      exact absurd hra (renderAll_ne_none s line.len line.data
        (fun p _ => renderPixel_ne_none s line.len p h1))
    | some px => simp

/-- C3 counterexample: with `bufferSizePower = 2` the accumulator has
`2^(2-1)/2 - 1 = 0` slots, so the clamp target `accumulatorLength - 1` is
`-1` and the very first accumulator read in `draw_frame` is out of bounds:
after one processed sample, drawing one pixel panics (`none`), refuting the
claim for `bufferSizePower = 2`. -/
theorem C3_clamp_counterexample :
    drawFrame (process (new 2 49.5 49.5 0 (fun l => l)) ⟨1760, [⟨1, 0⟩]⟩).1
        ⟨2, [⟨0, 0, 0, 0⟩]⟩ = none ∧
    (process (new 2 49.5 49.5 0 (fun l => l)) ⟨1760, [⟨1, 0⟩]⟩).1.freq_sum.length
      = 0 := by
  have hfs : (process (new 2 49.5 49.5 0 (fun l => l)) ⟨1760, [⟨1, 0⟩]⟩).1.freq_sum
      = [] := rfl
  have hn1 : (process (new 2 49.5 49.5 0 (fun l => l)) ⟨1760, [⟨1, 0⟩]⟩).1.freq_n
      = 1 := rfl
  refine ⟨?_, by rw [hfs]; rfl⟩
  simp [drawFrame, renderAll, renderPixel, hn1, hfs]

/-- C3 (amended): for every configuration with `bufferSizePower ≥ 3` the
fractional bin index computed in `draw_frame` is clamped into
`[0, accumulatorLength - 1]`, so both accumulator reads (at the saturating
casts of its floor and of its ceiling) are in bounds and the out-of-bounds
panic branch is unreachable. -/
theorem C3_clamp_in_bounds :
    ∀ (p : ℕ) (s : Spectrogram), 3 ≤ p → WF p s →
      (∀ f : ℝ, Int.toNat ⌊binIndex s f⌋ < s.freq_sum.length ∧
        Int.toNat ⌈binIndex s f⌉ < s.freq_sum.length) ∧
      (∀ line : Line, drawFrame s line ≠ none) := by
  intro p s hp hwf
  have h4 : 4 ≤ 2 ^ (p - 1) := by
    calc (4 : ℕ) = 2 ^ 2 := rfl
      _ ≤ 2 ^ (p - 1) := Nat.pow_le_pow_right (by norm_num) (by omega)
  have h1 : 1 ≤ s.freq_sum.length := by
    rw [hwf.freq_len]
    omega
  exact ⟨fun f => binIndex_bounds s f h1, fun line => drawFrame_ne_none s line h1⟩

theorem C3_clamp_in_bounds_witness :
    (Int.toNat ⌊binIndex (new 3 49.5 49.5 0 (fun l => l)) 440⌋
        < (new 3 49.5 49.5 0 (fun l => l)).freq_sum.length ∧
      Int.toNat ⌈binIndex (new 3 49.5 49.5 0 (fun l => l)) 440⌉
        < (new 3 49.5 49.5 0 (fun l => l)).freq_sum.length) ∧
    drawFrame (new 3 49.5 49.5 0 (fun l => l)) lineEmpty ≠ none :=
  ⟨(C3_clamp_in_bounds 3 (new 3 49.5 49.5 0 (fun l => l)) (by norm_num)
      ⟨fun _ => rfl, by simp [new], by simp [new], by simp [new], by simp [new]⟩).1 440,
   (C3_clamp_in_bounds 3 (new 3 49.5 49.5 0 (fun l => l)) (by norm_num)
      ⟨fun _ => rfl, by simp [new], by simp [new], by simp [new],
        by simp [new]⟩).2 lineEmpty⟩

/-- C7 counterexample: the code converts with a saturating truncation
(`as u8`), not with rounding: at `v = 1/2` the code writes `127` while
`round((1 - 1/2)·255) = round(127.5) = 128`. -/
theorem C7_grayscale_counterexample :
    grayscale (1 / 2 : ℝ) ≠ Int.toNat (round ((1 - (1 / 2 : ℝ)) * 255)) := by
  have h1 : grayscale (1 / 2 : ℝ) = 127 := by
    rw [grayscale, toByte]
    norm_num
    decide
  have h2 : round ((1 - (1 / 2 : ℝ)) * 255) = 128 := by
    rw [round_eq]
    norm_num
  rw [h1, h2]
  decide

/-- C7 (amended): each pixel value `v` is mapped to the grayscale byte
`c = ⌊(1-v)·255⌋` (saturating truncation, not rounding) for `v ∈ [0,1]`, the
mapping is antitone (higher accumulated energy gives a darker pixel), and the
same byte is written to the R, G and B channels of the pixel. -/
theorem C7_grayscale_mapping :
    (∀ v : ℝ, 0 ≤ v → v ≤ 1 → grayscale v = Int.toNat ⌊(1 - v) * 255⌋) ∧
    (∀ v w : ℝ, v ≤ w → grayscale w ≤ grayscale v) ∧
    (∀ (s : Spectrogram) (len : ℕ) (p q : Pixel),
      renderPixel s len p = some q → q.x = p.x ∧ q.r = q.g ∧ q.g = q.b) := by
  refine ⟨?_, ?_, ?_⟩
  · intro v h0 h1
    rw [grayscale, toByte]
    have hle : (1 - v) * 255 ≤ 255 := by nlinarith
    have hf : ⌊(1 - v) * 255⌋ ≤ 255 :=
      calc ⌊(1 - v) * 255⌋ ≤ ⌊(255 : ℝ)⌋ := Int.floor_le_floor hle
        _ = 255 := by norm_num
    omega
  · intro v w hvw
    rw [grayscale, grayscale, toByte, toByte]
    have hf : ⌊(1 - w) * 255⌋ ≤ ⌊(1 - v) * 255⌋ :=
      Int.floor_le_floor (by nlinarith)
    omega
  · intro s len p q h
    simp only [renderPixel] at h
    split at h
    · injection h with h1
      rw [← h1]
      exact ⟨rfl, rfl, rfl⟩
    · exact absurd h (by simp)

theorem C7_grayscale_mapping_witness :
    (grayscale (1 / 2 : ℝ) = Int.toNat ⌊(1 - (1 / 2 : ℝ)) * 255⌋) ∧
    (grayscale (1 / 2 : ℝ) ≤ grayscale 0) ∧
    ((⟨0, 0, 0, 0⟩ : Pixel).x = (⟨0, 0, 0, 0⟩ : Pixel).x ∧
      (⟨0, 0, 0, 0⟩ : Pixel).r = (⟨0, 0, 0, 0⟩ : Pixel).g ∧
      (⟨0, 0, 0, 0⟩ : Pixel).g = (⟨0, 0, 0, 0⟩ : Pixel).b) :=
  ⟨C7_grayscale_mapping.1 (1 / 2) (by norm_num) (by norm_num),
   C7_grayscale_mapping.2.1 0 (1 / 2) (by norm_num),
   C7_grayscale_mapping.2.2 stateA 2 ⟨0, 0, 0, 0⟩ ⟨0, 0, 0, 0⟩
     (by norm_num [renderPixel, stateA, binIndex, boost, grayscale, toByte])⟩

end Spectro
